import Mathlib

/-!
Verification of the Nano-GPT bigram language model notebook.

The development shallowly embeds the two components of the notebook:

* the vocabulary codec built from a corpus
  (chars, vocab_size, stoi, itos, encode, decode), and
* the BigramLanguageModel (a single vocab_size x vocab_size embedding
  table) with its forward pass, cross-entropy loss, autoregressive
  generation loop, and state-dict persistence.

Text is modelled as its character sequence (List Char), integer tensors
as nested lists of Nat, and real tensors as nested lists of ℝ.  The
mathematical semantics of the external numeric primitives
(F.softmax, F.cross_entropy, torch.multinomial) are embedded directly:
softmax and cross-entropy by their defining formulas, and multinomial
by inverse-CDF sampling driven by an explicit uniform random draw.
Python dictionary lookups that can raise KeyError, and tensor
indexing that can raise IndexError, are modelled with Option.
-/

/-- Vocabulary characters, from the notebook line
chars = sorted(list(set(text))): the distinct characters of the corpus,
sorted by code point. -/
def chars (text : List Char) : List Char :=
  (text.dedup).mergeSort (fun a b => a ≤ b)

/-- Vocabulary size, from the notebook line vocab_size = len(chars). -/
def vocab_size (text : List Char) : Nat :=
  (chars text).length

/-- Character-to-id mapping, from stoi = \x7bch: i for i, ch in enumerate(chars)\x7d.
A dictionary lookup stoi[c] raises KeyError for a character not in the
vocabulary, modelled by none. -/
def stoi (text : List Char) (c : Char) : Option Nat :=
  if c ∈ chars text then some (List.indexOf c (chars text)) else none

/-- Id-to-character mapping, from itos = \x7bi: ch for i, ch in enumerate(chars)\x7d.
A lookup itos[i] raises KeyError for an id outside [0, vocab_size),
modelled by none. -/
def itos (text : List Char) (i : Nat) : Option Char :=
  (chars text)[i]?

/-- Encoder, from encode = lambda s: [stoi[c] for c in s]. -/
def encode (text : List Char) (s : List Char) : Option (List Nat) :=
  s.mapM (stoi text)

/-- Decoder, from decode = lambda l: "".join([itos[i] for i in l]). -/
def decode (text : List Char) (l : List Nat) : Option (List Char) :=
  l.mapM (itos text)

/-- The bigram model: its constructor argument vocab_size and the single
learned parameter, the weight matrix of
nn.Embedding(vocab_size, vocab_size) named token_embedding_table. -/
structure BigramLanguageModel where
  vocab_size : Nat
  token_embedding_table : List (List ℝ)

/-- Well-formedness of a model: the embedding table really has shape
vocab_size x vocab_size, as nn.Embedding(vocab_size, vocab_size)
guarantees by construction. -/
def WF (m : BigramLanguageModel) : Prop :=
  m.token_embedding_table.length = m.vocab_size ∧
  ∀ row ∈ m.token_embedding_table, row.length = m.vocab_size

/-- Embedding lookup: self.token_embedding_table(idx) replaces each id in
the (B,T) tensor idx by the corresponding row of the weight matrix,
giving a (B,T,C) tensor. -/
def embeddingLookup (w : List (List ℝ)) (idx : List (List Nat)) : List (List (List ℝ)) :=
  idx.map (fun row => row.map (fun t => w.getD t []))

/-- Logits of the forward pass:
logits = self.token_embedding_table(idx). -/
def score (m : BigramLanguageModel) (idx : List (List Nat)) : List (List (List ℝ)) :=
  embeddingLookup m.token_embedding_table idx

/-- Mathematical semantics of F.softmax along the last dimension:
softmax(v)_i = exp(v_i) / sum_j exp(v_j). -/
noncomputable def softmax (v : List ℝ) : List ℝ :=
  v.map (fun x => Real.exp x / (v.map Real.exp).sum)

/-- Negative log-likelihood of one row of logits at a target class,
the per-example term of F.cross_entropy. -/
noncomputable def nllRow (row : List ℝ) (t : Nat) : ℝ :=
  -Real.log ((softmax row).getD t 0)

/-- Mathematical semantics of F.cross_entropy(logits, targets) on (N,C)
logits and (N,) targets with the default mean reduction:
the mean over rows of -log softmax(logits[n])[targets[n]]. -/
noncomputable def cross_entropy (logits : List (List ℝ)) (targets : List Nat) : ℝ :=
  (List.zipWith nllRow logits targets).sum / (logits.length : ℝ)

/-- The forward pass of BigramLanguageModel: returns the (B,T,C) logits
and, when targets are given, the cross-entropy loss of the logits
reshaped to (B*T, C) against the targets reshaped to (B*T,). -/
noncomputable def forward (m : BigramLanguageModel) (idx : List (List Nat))
    (targets : Option (List (List Nat))) : List (List (List ℝ)) × Option ℝ :=
  match targets with
  | none => (score m idx, none)
  | some tg => (score m idx, some (cross_entropy (score m idx).flatten tg.flatten))

/-- Mathematical semantics of torch.multinomial(probs, num_samples=1) on a
single probability row, driven by one uniform random draw r: inverse-CDF
sampling, returning the first index whose cumulative probability exceeds r
and clamping to the last index otherwise. -/
noncomputable def multinomial : List ℝ → ℝ → Nat
  | [], _ => 0
  | [_], _ => 0
  | p :: q :: ps, r => if r < p then 0 else multinomial (q :: ps) (r - p) + 1

/-- The time-slice logits[:, -1, :] of generate: the last row along the T
dimension for every batch element.  Indexing -1 raises IndexError on an
empty dimension, modelled by none. -/
def lastStep (logits : List (List (List ℝ))) : Option (List (List ℝ)) :=
  logits.mapM List.getLast?

/-- The probability tensor computed inside one iteration of generate:
probs = F.softmax(logits[:, -1, :], dim=-1), where
logits, loss = self(idx). -/
noncomputable def stepProbs (m : BigramLanguageModel) (idx : List (List Nat)) :
    Option (List (List ℝ)) :=
  (lastStep (forward m idx none).1).map (List.map softmax)

/-- One iteration of the generate loop: compute probs, sample
idx_next = torch.multinomial(probs, num_samples=1) with the per-row
uniform draw r b, and append it, idx = torch.cat((idx, idx_next), dim=1). -/
noncomputable def generateStep (m : BigramLanguageModel) (r : Nat → ℝ)
    (idx : List (List Nat)) : Option (List (List Nat)) :=
  (stepProbs m idx).map (fun probs =>
    List.zipWith (fun row bp => row ++ [multinomial bp.2 (r bp.1)]) idx probs.enum)

/-- The generate method: repeat generateStep max_new_tokens times, the
draws of step k supplied by rand k. -/
noncomputable def generate (m : BigramLanguageModel) (rand : Nat → Nat → ℝ)
    (idx : List (List Nat)) : Nat → Option (List (List Nat))
  | 0 => some idx
  | k + 1 => (generate m rand idx k).bind (generateStep m (rand k))

/-- Fresh construction BigramLanguageModel(vocab_size): the embedding table
starts from framework-chosen random initial values w. -/
def BigramLanguageModel.init (n : Nat) (w : List (List ℝ)) : BigramLanguageModel :=
  ⟨n, w⟩

/-- The state dict of the model: the mapping from the single parameter name
token_embedding_table.weight to its matrix, represented by the matrix. -/
def state_dict (m : BigramLanguageModel) : List (List ℝ) :=
  m.token_embedding_table

/-- Modelled from the spec: torch.save serializes the parameter mapping
losslessly; its body is not part of this repository. -/
def torch_save (sd : List (List ℝ)) : List (List ℝ) :=
  sd

/-- Modelled from the spec: torch.load deserializes exactly what
torch.save wrote; its body is not part of this repository. -/
def torch_load (artifact : List (List ℝ)) : List (List ℝ) :=
  artifact

/-- The load_state_dict method: copies the stored matrix into the
parameter of the same name, failing on a shape mismatch with the
constructed architecture. -/
def load_state_dict (m : BigramLanguageModel) (sd : List (List ℝ)) :
    Option BigramLanguageModel :=
  if sd.length = m.vocab_size ∧ ∀ row ∈ sd, row.length = m.vocab_size then
    some { m with token_embedding_table := sd }
  else none

/-- The loss as the specification words it, for comparison with forward:
loss = -mean(log(softmax(logits)[b,t,targets[b,t]])) over all B*T
positions of a [B,T] batch, where logits = score(inputs). -/
noncomputable def specLoss (m : BigramLanguageModel) (inputs targets : List (List Nat))
    (T : Nat) : ℝ :=
  -((List.zipWith
      (fun irow trow =>
        (List.zipWith
          (fun i t =>
            Real.log ((softmax (m.token_embedding_table.getD i [])).getD t 0))
          irow trow).sum)
      inputs targets).sum / ((inputs.length * T : Nat) : ℝ))

/-- Concrete well-formed model of vocabulary size 2 used as a test input. -/
noncomputable def mdl0 : BigramLanguageModel :=
  ⟨2, [[1, 2], [3, 4]]⟩

/-- Concrete random source used as a test input. -/
def rand0 : Nat → Nat → ℝ :=
  fun _ _ => 0

/-- Membership in the vocabulary character list is membership in the corpus. -/
theorem mem_chars {text : List Char} {c : Char} : c ∈ chars text ↔ c ∈ text := by
  unfold chars
  rw [List.mem_mergeSort, List.mem_dedup]

/-- The vocabulary character list has no duplicates. -/
theorem nodup_chars (text : List Char) : (chars text).Nodup :=
  ((List.mergeSort_perm text.dedup _).nodup_iff).mpr (List.nodup_dedup text)

/-- Unfolding of Option-valued mapM on the empty list. -/
theorem mapM_option_nil {α β : Type} (f : α → Option β) :
    List.mapM f ([] : List α) = some [] := by
  rw [List.mapM_nil]; rfl

/-- Unfolding of Option-valued mapM on a cons cell. -/
theorem mapM_option_cons {α β : Type} (f : α → Option β) (a : α) (l : List α) :
    List.mapM f (a :: l) = (f a).bind (fun b => (List.mapM f l).map (b :: ·)) := by
  rw [List.mapM_cons]
  cases f a <;> cases h : List.mapM f l <;> rfl

/-- Option-valued mapM inverts Option-valued mapM when the element maps
invert each other on every element of the list. -/
theorem mapM_roundtrip {α β : Type} (f : α → Option β) (g : β → Option α) (s : List α)
    (h : ∀ a ∈ s, ∃ b, f a = some b ∧ g b = some a) :
    (s.mapM f).bind (fun l => l.mapM g) = some s := by
  induction s with
  | nil => rw [mapM_option_nil, Option.some_bind, mapM_option_nil]
  | cons a s ih =>
    obtain ⟨b, hfa, hgb⟩ := h a (by simp)
    have ih2 := ih (fun x hx => h x (by simp [hx]))
    rw [mapM_option_cons, hfa, Option.some_bind]
    cases hs : List.mapM f s with
    | none => rw [hs] at ih2; simp at ih2
    | some l =>
      rw [hs] at ih2
      rw [Option.some_bind] at ih2
      simp only [hs, Option.map_some', Option.some_bind]
      rw [mapM_option_cons, hgb, Option.some_bind, ih2]
      rfl

/-- Every corpus character has an id, and that id decodes back to it. -/
theorem stoi_itos_inverse {text : List Char} {c : Char} (h : c ∈ text) :
    ∃ i, stoi text c = some i ∧ itos text i = some c := by
  have hc : c ∈ chars text := mem_chars.mpr h
  have hlt : List.indexOf c (chars text) < (chars text).length :=
    List.indexOf_lt_length.mpr hc
  refine ⟨List.indexOf c (chars text), ?_, ?_⟩
  · simp [stoi, hc]
  · simp [itos, List.getElem?_eq_getElem hlt, List.getElem_indexOf hlt]

/-- Every valid id decodes to a character, and that character encodes back
to the same id. -/
theorem itos_stoi_inverse {text : List Char} {i : Nat} (h : i < vocab_size text) :
    ∃ c, itos text i = some c ∧ stoi text c = some i := by
  have h' : i < (chars text).length := h
  refine ⟨(chars text)[i], ?_, ?_⟩
  · simp [itos, List.getElem?_eq_getElem h']
  · have hm : (chars text)[i] ∈ chars text := List.getElem_mem h'
    simp [stoi, hm, List.indexOf_getElem (nodup_chars text) i h']

/-- C6: for every vocabulary built from a corpus and every text whose
characters all occur in that corpus, decoding the encoding of the text
returns exactly the text. -/
theorem decode_encode_roundtrip (text s : List Char) (h : ∀ c ∈ s, c ∈ text) :
    (encode text s).bind (decode text) = some s :=
  mapM_roundtrip (stoi text) (itos text) s (fun c hc => stoi_itos_inverse (h c hc))

/-- C6 witness at the corpus "abab" and text "ba". -/
theorem decode_encode_roundtrip_witness :
    (encode ['a', 'b', 'a', 'b'] ['b', 'a']).bind (decode ['a', 'b', 'a', 'b'])
      = some ['b', 'a'] :=
  decode_encode_roundtrip ['a', 'b', 'a', 'b'] ['b', 'a'] (by decide)

/-- C10: for every vocabulary built from a corpus and every id sequence
whose ids all lie in [0, vocab_size), encoding the decoding of the sequence
returns exactly the sequence: the two closures are mutually inverse. -/
theorem encode_decode_roundtrip (text : List Char) (ids : List Nat)
    (h : ∀ i ∈ ids, i < vocab_size text) :
    (decode text ids).bind (encode text) = some ids :=
  mapM_roundtrip (itos text) (stoi text) ids (fun i hi => itos_stoi_inverse (h i hi))

/-- The vocabulary of the corpus "ab" is the two characters themselves. -/
theorem chars_ab : chars ['a', 'b'] = ['a', 'b'] := by
  unfold chars
  rw [List.dedup_eq_self.mpr (by decide)]
  exact List.mergeSort_of_sorted (by decide)

/-- The vocabulary size of the corpus "ab" is 2. -/
theorem vocab_size_ab : vocab_size ['a', 'b'] = 2 := by
  unfold vocab_size
  rw [chars_ab]
  rfl

/-- C10 witness at the corpus "ab" and the id sequence [1, 0, 1]. -/
theorem encode_decode_roundtrip_witness :
    (decode ['a', 'b'] [1, 0, 1]).bind (encode ['a', 'b']) = some [1, 0, 1] :=
  encode_decode_roundtrip ['a', 'b'] [1, 0, 1] (by
    intro i hi
    rw [vocab_size_ab]
    simp at hi
    omega)

/-- C7 counterexample: on the empty corpus the vocabulary build does not
fail: chars = sorted(list(set(text))) is total and returns the empty
character list, a vocabulary of size 0. -/
theorem build_empty_corpus_size_zero : chars [] = [] ∧ vocab_size [] = 0 := by
  constructor
  · unfold chars
    rw [List.dedup_nil, List.mergeSort_nil]
  · unfold vocab_size chars
    rw [List.dedup_nil, List.mergeSort_nil]
    rfl

/-- C7 amended: building the vocabulary never fails: on the empty corpus it
yields a size-0 vocabulary rather than failing, and on every non-empty
corpus it yields a vocabulary of positive size. -/
theorem build_never_fails (text : List Char) :
    (text = [] → vocab_size text = 0) ∧ (text ≠ [] → 0 < vocab_size text) := by
  constructor
  · rintro rfl
    unfold vocab_size chars
    rw [List.dedup_nil, List.mergeSort_nil]
    rfl
  · intro hne
    cases text with
    | nil => exact absurd rfl hne
    | cons c text' =>
      have hc : c ∈ chars (c :: text') := mem_chars.mpr (by simp)
      exact List.length_pos.mpr (List.ne_nil_of_mem hc)

/-- C7 witness at the corpora "ab" and "". -/
theorem build_never_fails_witness : 0 < vocab_size ['a', 'b'] ∧ vocab_size [] = 0 :=
  ⟨(build_never_fails ['a', 'b']).2 (by decide), (build_never_fails []).1 rfl⟩

/-- Membership from a successful index lookup. -/
theorem mem_of_getElem?_eq {α : Type} {l : List α} {i : Nat} {a : α}
    (h : l[i]? = some a) : a ∈ l := by
  obtain ⟨hlt, rfl⟩ := List.getElem?_eq_some_iff.mp h
  exact List.getElem_mem hlt

/-- Index lookup after a successful Option-valued mapM. -/
theorem mapM_option_getElem? {α β : Type} {f : α → Option β} :
    ∀ {l : List α} {ys : List β}, List.mapM f l = some ys →
      ∀ i : Nat, ys[i]? = (l[i]?).bind f
  | [], ys, h, i => by
    rw [mapM_option_nil] at h
    cases h
    simp
  | a :: l, ys, h, i => by
    rw [mapM_option_cons] at h
    obtain ⟨b, hfa, hmap⟩ := Option.bind_eq_some.mp h
    obtain ⟨zs, hzs, hcons⟩ := Option.map_eq_some'.mp hmap
    subst hcons
    cases i with
    | zero => simp [hfa]
    | succ i => simpa using mapM_option_getElem? hzs i

/-- Length preservation of a successful Option-valued mapM. -/
theorem mapM_option_length {α β : Type} {f : α → Option β} :
    ∀ {l : List α} {ys : List β}, List.mapM f l = some ys → ys.length = l.length
  | [], ys, h => by
    rw [mapM_option_nil] at h
    cases h
    rfl
  | a :: l, ys, h => by
    rw [mapM_option_cons] at h
    obtain ⟨b, hfa, hmap⟩ := Option.bind_eq_some.mp h
    obtain ⟨zs, hzs, hcons⟩ := Option.map_eq_some'.mp hmap
    subst hcons
    simpa using mapM_option_length hzs

/-- Totality of Option-valued mapM when every element succeeds. -/
theorem mapM_option_total {α β : Type} (f : α → Option β) :
    ∀ l : List α, (∀ a ∈ l, (f a).isSome) → ∃ ys, List.mapM f l = some ys
  | [], _ => ⟨[], mapM_option_nil f⟩
  | a :: l, h => by
    obtain ⟨b, hb⟩ := Option.isSome_iff_exists.mp (h a (by simp))
    obtain ⟨zs, hzs⟩ := mapM_option_total f l (fun x hx => h x (by simp [hx]))
    exact ⟨b :: zs, by rw [mapM_option_cons, hb, Option.some_bind, hzs]; rfl⟩

/-- A multinomial sample over a non-empty probability row is a valid index
into that row, whatever the random draw. -/
theorem multinomial_lt : ∀ (probs : List ℝ) (r : ℝ), probs ≠ [] →
    multinomial probs r < probs.length
  | [], _, h => absurd rfl h
  | [_], _, _ => by simp [multinomial]
  | p :: q :: ps, r, _ => by
    simp only [multinomial]
    split
    · simp
    · have ih := multinomial_lt (q :: ps) (r - p) (by simp)
      simp only [List.length_cons] at ih ⊢
      omega

/-- Softmax preserves the length of its input row. -/
theorem length_softmax (v : List ℝ) : (softmax v).length = v.length := by
  simp [softmax]

/-- In a well-formed model, the looked-up logit row of a valid token id has
length vocab_size. -/
theorem lookup_row_length (m : BigramLanguageModel) (hWF : WF m) {t : Nat}
    (ht : t < m.vocab_size) :
    (m.token_embedding_table.getD t []).length = m.vocab_size := by
  obtain ⟨h1, h2⟩ := hWF
  have htl : t < m.token_embedding_table.length := by rw [h1]; exact ht
  rw [List.getD_eq_getElem?_getD, List.getElem?_eq_getElem htl, Option.getD_some]
  exact h2 _ (List.getElem_mem htl)

/-- The probability row computed by a generate iteration for batch element b
is the softmax of the logit row of the last token of context b. -/
theorem stepProbs_getElem (m : BigramLanguageModel) (idx : List (List Nat))
    (P : List (List ℝ)) (hP : stepProbs m idx = some P) (b : Nat) (row : List Nat)
    (t : Nat) (hb : idx[b]? = some row) (hlast : row.getLast? = some t) :
    P[b]? = some (softmax (m.token_embedding_table.getD t [])) := by
  rw [stepProbs] at hP
  obtain ⟨L, hL, hPL⟩ := Option.map_eq_some'.mp hP
  rw [lastStep] at hL
  have hLb := mapM_option_getElem? hL b
  have hlog : (forward m idx none).1[b]? =
      some (row.map (fun tok => m.token_embedding_table.getD tok [])) := by
    show (score m idx)[b]? = _
    rw [score, embeddingLookup, List.getElem?_map, hb]
    rfl
  rw [hlog, Option.some_bind, List.getLast?_map, hlast, Option.map_some'] at hLb
  rw [← hPL, List.getElem?_map, hLb]
  rfl

/-- When every context row is non-empty, a generate iteration succeeds. -/
theorem generateStep_total (m : BigramLanguageModel) (r : Nat → ℝ)
    (idx : List (List Nat)) (hne : ∀ row ∈ idx, row ≠ []) :
    ∃ out, generateStep m r idx = some out := by
  have hsome : ∀ lrow ∈ (forward m idx none).1, (List.getLast? lrow).isSome := by
    intro lrow hlrow
    rw [List.getLast?_isSome]
    have hlrow2 : lrow ∈ idx.map
        (fun row => row.map (fun tok => m.token_embedding_table.getD tok [])) := hlrow
    obtain ⟨row, hrow, hmap⟩ := List.mem_map.mp hlrow2
    rw [← hmap]
    simpa using hne row hrow
  obtain ⟨L, hL⟩ := mapM_option_total _ _ hsome
  exact ⟨_, by rw [generateStep, stepProbs, lastStep, hL]; rfl⟩

/-- Shape of a successful generate iteration: the batch size is preserved
and each context row gets exactly the multinomial sample of its
last-token softmax row appended. -/
theorem generateStep_spec (m : BigramLanguageModel) (r : Nat → ℝ)
    (idx out : List (List Nat)) (hstep : generateStep m r idx = some out) :
    out.length = idx.length ∧
    ∀ b row, idx[b]? = some row → ∃ t, row.getLast? = some t ∧
      out[b]? = some (row ++
        [multinomial (softmax (m.token_embedding_table.getD t [])) (r b)]) := by
  rw [generateStep] at hstep
  obtain ⟨P, hP, hout⟩ := Option.map_eq_some'.mp hstep
  subst hout
  have hPmem := hP
  rw [stepProbs] at hPmem
  obtain ⟨L, hL, hPL⟩ := Option.map_eq_some'.mp hPmem
  rw [lastStep] at hL
  have hscorelen : (forward m idx none).1.length = idx.length := by
    show (score m idx).length = idx.length
    rw [score, embeddingLookup, List.length_map]
  have hLlen : L.length = idx.length := by
    rw [mapM_option_length hL, hscorelen]
  have hPlen : P.length = idx.length := by
    rw [← hPL, List.length_map, hLlen]
  refine ⟨?_, ?_⟩
  · rw [List.length_zipWith, List.enum_length, hPlen, min_self]
  · intro b row hb
    have hblt : b < idx.length := (List.getElem?_eq_some_iff.mp hb).1
    have hLb := mapM_option_getElem? hL b
    have hlog : (forward m idx none).1[b]? =
        some (row.map (fun tok => m.token_embedding_table.getD tok [])) := by
      show (score m idx)[b]? = _
      rw [score, embeddingLookup, List.getElem?_map, hb]
      rfl
    rw [hlog, Option.some_bind, List.getLast?_map] at hLb
    have hbL : b < L.length := by rw [hLlen]; exact hblt
    cases hlast : row.getLast? with
    | none =>
      rw [hlast, Option.map_none', List.getElem?_eq_getElem hbL] at hLb
      cases hLb
    | some t =>
      refine ⟨t, rfl, ?_⟩
      rw [hlast, Option.map_some'] at hLb
      have hPb : P[b]? = some (softmax (m.token_embedding_table.getD t [])) := by
        rw [← hPL, List.getElem?_map, hLb]
        rfl
      rw [List.getElem?_zipWith, hb, List.getElem?_enum, hPb]
      rfl

/-- The concrete model mdl0 is well-formed. -/
theorem mdl0_WF : WF mdl0 := by
  refine ⟨rfl, ?_⟩
  intro row hrow
  simp only [mdl0, List.mem_cons, List.not_mem_nil, or_false] at hrow
  rcases hrow with rfl | rfl <;> rfl

/-- C3 counterexample: on the empty (but vacuously valid) seed sequence,
generate does not return an extended sequence at all: indexing the last
time step of an empty context fails, so generate with one step fails. -/
theorem generate_empty_seed_fails :
    generate mdl0 rand0 [([] : List Nat)] 1 = none := by
  simp only [generate]
  rw [Option.some_bind, generateStep, stepProbs]
  rw [show (forward mdl0 [([] : List Nat)] none).1 = [([] : List (List ℝ))] from rfl]
  rw [lastStep, mapM_option_cons]
  rfl

/-- C3 amended: for every seed batch whose rows are all non-empty and every
number of steps, generate succeeds and returns, for each batch row, the
original seed row extended by exactly steps new ids: the length is
len(seed) + steps and the first len(seed) elements are the seed itself. -/
theorem generate_length_extends (m : BigramLanguageModel) (rand : Nat → Nat → ℝ)
    (idx : List (List Nat)) (steps : Nat) (hne : ∀ row ∈ idx, row ≠ []) :
    ∃ out : List (List Nat), generate m rand idx steps = some out ∧
      out.length = idx.length ∧
      ∀ (b : Nat) (row : List Nat), idx[b]? = some row →
        ∃ orow : List Nat, out[b]? = some orow ∧
          orow.length = row.length + steps ∧ orow.take row.length = row := by
  induction steps with
  | zero =>
    exact ⟨idx, rfl, rfl, fun b row hb => ⟨row, hb, rfl, List.take_length row⟩⟩
  | succ k ih =>
    obtain ⟨out, hout, hlen, hrows⟩ := ih
    have hne2 : ∀ row ∈ out, row ≠ [] := by
      intro orow hmem
      obtain ⟨b, hb⟩ := List.mem_iff_getElem?.mp hmem
      have hblt : b < out.length := (List.getElem?_eq_some_iff.mp hb).1
      have hbidx : b < idx.length := by rw [← hlen]; exact hblt
      obtain ⟨row, hrow⟩ : ∃ row, idx[b]? = some row :=
        ⟨_, List.getElem?_eq_getElem hbidx⟩
      obtain ⟨orow2, hb2, hlen2, _⟩ := hrows b row hrow
      rw [hb] at hb2
      cases hb2
      have hrne : row ≠ [] := hne row (mem_of_getElem?_eq hrow)
      intro hnil
      rw [hnil] at hlen2
      simp only [List.length_nil] at hlen2
      exact hrne (List.length_eq_zero.mp (by omega))
    obtain ⟨out2, hstep⟩ := generateStep_total m (rand k) out hne2
    obtain ⟨hlen2, hrows2⟩ := generateStep_spec m (rand k) out out2 hstep
    refine ⟨out2, ?_, by rw [hlen2, hlen], ?_⟩
    · simp only [generate]
      rw [hout, Option.some_bind, hstep]
    · intro b row hb
      obtain ⟨orow, hob, holen, hotake⟩ := hrows b row hb
      obtain ⟨t, hlast, hob2⟩ := hrows2 b orow hob
      refine ⟨orow ++
        [multinomial (softmax (m.token_embedding_table.getD t [])) (rand k b)],
        hob2, ?_, ?_⟩
      · rw [List.length_append, holen]
        simp only [List.length_cons, List.length_nil]
        omega
      · rw [List.take_append_of_le_length (by omega)]
        exact hotake

/-- C3 witness: a non-empty seed of one token extended by three steps. -/
theorem generate_length_extends_witness :
    ∃ out : List (List Nat), generate mdl0 rand0 [[0]] 3 = some out ∧
      out.length = 1 ∧
      ∀ (b : Nat) (row : List Nat), ([[0]] : List (List Nat))[b]? = some row →
        ∃ orow : List Nat, out[b]? = some orow ∧
          orow.length = row.length + 3 ∧ orow.take row.length = row :=
  generate_length_extends mdl0 rand0 [[0]] 3 (by decide)

/-- C4: the categorical distribution a generate iteration samples from
depends only on the last token of the context row: for any two context
batches whose rows b end in the same token id t, the probability row at
position b is in both cases exactly the softmax of logit row t of the
parameter table, regardless of all earlier context. -/
theorem generate_dist_depends_only_on_last (m : BigramLanguageModel)
    (idx1 idx2 : List (List Nat)) (b t : Nat) (row1 row2 : List Nat)
    (P1 P2 : List (List ℝ))
    (h1 : idx1[b]? = some row1) (h2 : idx2[b]? = some row2)
    (hl1 : row1.getLast? = some t) (hl2 : row2.getLast? = some t)
    (hp1 : stepProbs m idx1 = some P1) (hp2 : stepProbs m idx2 = some P2) :
    P1[b]? = some (softmax (m.token_embedding_table.getD t [])) ∧
    P2[b]? = some (softmax (m.token_embedding_table.getD t [])) :=
  ⟨stepProbs_getElem m idx1 P1 hp1 b row1 t h1 hl1,
   stepProbs_getElem m idx2 P2 hp2 b row2 t h2 hl2⟩

/-- C4 witness: contexts [0, 1] and [1] share the last token 1 and give the
same sampling distribution, the softmax of parameter row 1. -/
theorem generate_dist_depends_only_on_last_witness :
    ([softmax [(3 : ℝ), 4]] : List (List ℝ))[0]? =
      some (softmax (mdl0.token_embedding_table.getD 1 [])) ∧
    ([softmax [(3 : ℝ), 4]] : List (List ℝ))[0]? =
      some (softmax (mdl0.token_embedding_table.getD 1 [])) :=
  generate_dist_depends_only_on_last mdl0 [[0, 1]] [[1]] 0 1 [0, 1] [1]
    [softmax [(3 : ℝ), 4]] [softmax [(3 : ℝ), 4]] rfl rfl rfl rfl rfl rfl

/-- C5: whenever generate returns a sequence batch from a well-formed model
and a valid seed batch (all ids in [0, vocab_size)), every id of the result
lies in [0, vocab_size): each sampled id indexes a categorical distribution
over exactly vocab_size candidates. -/
theorem generate_ids_in_range (m : BigramLanguageModel) (rand : Nat → Nat → ℝ)
    (idx : List (List Nat)) (steps : Nat) (out : List (List Nat)) (hWF : WF m)
    (hin : ∀ row ∈ idx, ∀ t ∈ row, t < m.vocab_size)
    (hout : generate m rand idx steps = some out) :
    ∀ row ∈ out, ∀ t ∈ row, t < m.vocab_size := by
  induction steps generalizing out with
  | zero =>
    simp only [generate] at hout
    cases hout
    exact hin
  | succ k ih =>
    simp only [generate] at hout
    obtain ⟨mid, hmid, hstep⟩ := Option.bind_eq_some.mp hout
    have hmidin := ih mid hmid
    obtain ⟨hlen, hrows⟩ := generateStep_spec m (rand k) mid out hstep
    intro row hr t3 ht3
    obtain ⟨b, hb⟩ := List.mem_iff_getElem?.mp hr
    have hblt : b < out.length := (List.getElem?_eq_some_iff.mp hb).1
    have hbm : b < mid.length := by rw [← hlen]; exact hblt
    obtain ⟨mrow, hmrow⟩ : ∃ mrow, mid[b]? = some mrow :=
      ⟨_, List.getElem?_eq_getElem hbm⟩
    obtain ⟨tl, htl, houtb⟩ := hrows b mrow hmrow
    rw [hb] at houtb
    have hrww : row = mrow ++
        [multinomial (softmax (m.token_embedding_table.getD tl [])) (rand k b)] := by
      cases houtb
      rfl
    rw [hrww] at ht3
    rcases List.mem_append.mp ht3 with hmem | hmem
    · exact hmidin mrow (mem_of_getElem?_eq hmrow) t3 hmem
    · have ht3v : t3 = multinomial (softmax (m.token_embedding_table.getD tl []))
          (rand k b) := by simpa using hmem
      have htlv : tl < m.vocab_size :=
        hmidin mrow (mem_of_getElem?_eq hmrow) tl (List.mem_of_getLast?_eq_some htl)
      have hplen : (softmax (m.token_embedding_table.getD tl [])).length
          = m.vocab_size := by
        rw [length_softmax]
        exact lookup_row_length m hWF htlv
      have hlt := multinomial_lt (softmax (m.token_embedding_table.getD tl []))
        (rand k b) (by rw [← List.length_pos, hplen]; omega)
      rw [ht3v, ← hplen]
      exact hlt

/-- C5 witness at the seed batch [[0]] with zero steps, evaluated at the
first id of the first returned row. -/
theorem generate_ids_in_range_witness : 0 < mdl0.vocab_size :=
  generate_ids_in_range mdl0 rand0 [[0]] 0 [[0]] mdl0_WF (by decide) rfl
    [0] (by decide) 0 (by decide)

/-- C1: on a valid [B,T] batch, score returns a [B,T,vocab_size] tensor in
which the vector at position (b,t) is exactly row inputs[b][t] of the
parameter table; the output is fully determined by these row lookups. -/
theorem score_is_row_lookup (m : BigramLanguageModel) (inputs : List (List Nat))
    (hWF : WF m) (hin : ∀ row ∈ inputs, ∀ t ∈ row, t < m.vocab_size) :
    (score m inputs).length = inputs.length ∧
    ∀ (b t : Nat) (row : List Nat) (tok : Nat), inputs[b]? = some row →
      row[t]? = some tok →
      ∃ (out : List (List ℝ)) (wrow : List ℝ),
        (score m inputs)[b]? = some out ∧ out.length = row.length ∧
        m.token_embedding_table[tok]? = some wrow ∧ out[t]? = some wrow ∧
        wrow.length = m.vocab_size := by
  obtain ⟨hW1, hW2⟩ := hWF
  refine ⟨by rw [score, embeddingLookup, List.length_map], ?_⟩
  intro b t row tok hb ht
  have hrow : row ∈ inputs := mem_of_getElem?_eq hb
  have htok : tok ∈ row := mem_of_getElem?_eq ht
  have htlt : tok < m.token_embedding_table.length := by
    rw [hW1]; exact hin row hrow tok htok
  refine ⟨row.map (fun tk => m.token_embedding_table.getD tk []),
    m.token_embedding_table.getD tok [], ?_, List.length_map _ _, ?_, ?_, ?_⟩
  · rw [score, embeddingLookup, List.getElem?_map, hb]
    rfl
  · rw [List.getElem?_eq_getElem htlt, List.getD_eq_getElem?_getD,
      List.getElem?_eq_getElem htlt, Option.getD_some]
  · rw [List.getElem?_map, ht]
    rfl
  · rw [List.getD_eq_getElem?_getD, List.getElem?_eq_getElem htlt, Option.getD_some]
    exact hW2 _ (List.getElem_mem htlt)

/-- C1 witness at a 2 x 2 batch over the concrete model. -/
theorem score_is_row_lookup_witness :
    (score mdl0 [[0, 1], [1, 0]]).length = 2 :=
  (score_is_row_lookup mdl0 [[0, 1], [1, 0]] mdl0_WF (by decide)).1

/-- Summing a zipWith over the flattened forms of two equal-shaped nested
lists equals summing the rowwise zipWith sums. -/
theorem sum_zipWith_flatten {α β : Type} (f : α → β → ℝ) :
    ∀ (xss : List (List α)) (yss : List (List β)),
      xss.length = yss.length →
      (∀ (i : Nat) (xs : List α) (ys : List β), xss[i]? = some xs →
        yss[i]? = some ys → xs.length = ys.length) →
      (List.zipWith f xss.flatten yss.flatten).sum =
        (List.zipWith (fun xs ys => (List.zipWith f xs ys).sum) xss yss).sum
  | [], [], _, _ => by simp
  | [], ys :: yss, h, _ => by simp at h
  | xs :: xss, [], h, _ => by simp at h
  | xs :: xss, ys :: yss, h, hrow => by
    have h0 : xs.length = ys.length := hrow 0 xs ys (by simp) (by simp)
    have ih := sum_zipWith_flatten f xss yss (by simpa using h)
      (fun i as bs ha hb => hrow (i + 1) as bs (by simpa using ha) (by simpa using hb))
    rw [List.flatten_cons, List.flatten_cons, List.zipWith_append _ _ _ _ _ h0,
      List.sum_append, List.zipWith_cons_cons, List.sum_cons, ih]

/-- Summing a pointwise negated zipWith negates the sum. -/
theorem sum_zipWith_neg {α β : Type} (g : α → β → ℝ) :
    ∀ (xs : List α) (ys : List β),
      (List.zipWith (fun a b => -(g a b)) xs ys).sum = -(List.zipWith g xs ys).sum
  | [], _ => by simp
  | _ :: _, [] => by simp
  | x :: xs, y :: ys => by
    rw [List.zipWith_cons_cons, List.zipWith_cons_cons, List.sum_cons, List.sum_cons,
      sum_zipWith_neg g xs ys]
    ring

/-- C2: on a rectangular [B,T] batch of valid shape, the loss computed by
forward equals the categorical cross-entropy the specification states:
the negated mean over all B*T positions of the log of the softmax
probability assigned to the target id. -/
theorem forward_loss_is_cross_entropy (m : BigramLanguageModel)
    (inputs targets : List (List Nat)) (T : Nat)
    (hB : targets.length = inputs.length)
    (hTi : ∀ row ∈ inputs, row.length = T)
    (hTt : ∀ row ∈ targets, row.length = T) :
    (forward m inputs (some targets)).2 = some (specLoss m inputs targets T) := by
  show some (cross_entropy (score m inputs).flatten targets.flatten)
    = some (specLoss m inputs targets T)
  refine congrArg some ?_
  have hflat : (score m inputs).flatten
      = (inputs.flatten).map (fun tok => m.token_embedding_table.getD tok []) := by
    rw [score, embeddingLookup, ← List.map_flatten]
  have hzip : List.zipWith nllRow (score m inputs).flatten targets.flatten
      = List.zipWith (fun i t => nllRow (m.token_embedding_table.getD i []) t)
          inputs.flatten targets.flatten := by
    rw [hflat, List.zipWith_map_left]
  have hrowlen : ∀ (i : Nat) (xs ys : List Nat), inputs[i]? = some xs →
      targets[i]? = some ys → xs.length = ys.length := by
    intro i xs ys hx hy
    rw [hTi xs (mem_of_getElem?_eq hx), hTt ys (mem_of_getElem?_eq hy)]
  have hsum := sum_zipWith_flatten
    (fun i t => nllRow (m.token_embedding_table.getD i []) t) inputs targets
    hB.symm hrowlen
  have hneg1 : (fun (irow trow : List Nat) =>
      (List.zipWith (fun i t => nllRow (m.token_embedding_table.getD i []) t)
        irow trow).sum)
      = (fun (irow trow : List Nat) =>
      -((List.zipWith (fun i t =>
          Real.log ((softmax (m.token_embedding_table.getD i [])).getD t 0))
        irow trow).sum)) := by
    funext irow trow
    rw [← sum_zipWith_neg]
    rfl
  have hlenflat : (score m inputs).flatten.length = inputs.length * T := by
    rw [hflat, List.length_map, List.length_flatten]
    have hrep : inputs.map List.length = List.replicate inputs.length T :=
      List.eq_replicate_iff.mpr ⟨List.length_map _ _, by
        intro b hb
        obtain ⟨row, hrow, rfl⟩ := List.mem_map.mp hb
        exact hTi row hrow⟩
    rw [hrep, List.sum_replicate, smul_eq_mul]
  rw [cross_entropy, hzip, hsum, hneg1, sum_zipWith_neg, hlenflat, specLoss,
    neg_div]

/-- C2 witness at a concrete 1 x 2 batch over the concrete model. -/
theorem forward_loss_is_cross_entropy_witness :
    (forward mdl0 [[0, 1]] (some [[1, 0]])).2 = some (specLoss mdl0 [[0, 1]] [[1, 0]] 2) :=
  forward_loss_is_cross_entropy mdl0 [[0, 1]] [[1, 0]] 2 rfl (by decide) (by decide)

/-- Decomposition of membership in a zipWith. -/
theorem mem_zipWith {α β γ : Type} {f : α → β → γ} :
    ∀ {l1 : List α} {l2 : List β} {c : γ}, c ∈ List.zipWith f l1 l2 →
      ∃ a b, a ∈ l1 ∧ b ∈ l2 ∧ c = f a b
  | [], _, c, h => by simp at h
  | _ :: _, [], c, h => by simp at h
  | a :: l1, b :: l2, c, h => by
    rw [List.zipWith_cons_cons] at h
    rcases List.mem_cons.mp h with rfl | h2
    · exact ⟨a, b, by simp, by simp, rfl⟩
    · obtain ⟨a2, b2, ha, hb, rfl⟩ := mem_zipWith h2
      exact ⟨a2, b2, by simp [ha], by simp [hb], rfl⟩

/-- The per-position negative log-likelihood is non-negative whenever the
target indexes into the logit row: the softmax probability lies in (0, 1]. -/
theorem nllRow_nonneg (row : List ℝ) (t : Nat) (ht : t < row.length) :
    0 ≤ nllRow row t := by
  have hne : row ≠ [] := by
    intro h
    rw [h] at ht
    simp at ht
  have hS : 0 < (row.map Real.exp).sum := by
    apply List.sum_pos
    · intro x hx
      obtain ⟨y, _, rfl⟩ := List.mem_map.mp hx
      exact Real.exp_pos y
    · simpa using hne
  have htl : t < (softmax row).length := by
    rw [length_softmax]
    exact ht
  rw [nllRow, neg_nonneg, List.getD_eq_getElem?_getD, List.getElem?_eq_getElem htl,
    Option.getD_some]
  have hval : (softmax row)[t] = Real.exp row[t] / (row.map Real.exp).sum := by
    simp [softmax]
  rw [hval]
  apply Real.log_nonpos
  · exact div_nonneg (Real.exp_pos _).le hS.le
  · rw [div_le_one hS]
    exact List.single_le_sum
      (fun x hx => by
        obtain ⟨y, _, rfl⟩ := List.mem_map.mp hx
        exact (Real.exp_pos y).le)
      _ (List.mem_map_of_mem _ (List.getElem_mem ht))

/-- C8: on every well-formed model and non-degenerate rectangular valid
batch, the logits returned by score have shape (B, T, vocab_size), and
forward returns a loss that is a (finite) non-negative real number. -/
theorem forward_shape_and_loss_nonneg (m : BigramLanguageModel)
    (inputs targets : List (List Nat)) (T : Nat) (hWF : WF m)
    (_hBpos : 0 < inputs.length) (_hTpos : 0 < T)
    (_hB : targets.length = inputs.length)
    (hTi : ∀ row ∈ inputs, row.length = T)
    (_hTt : ∀ row ∈ targets, row.length = T)
    (hin : ∀ row ∈ inputs, ∀ t ∈ row, t < m.vocab_size)
    (htg : ∀ row ∈ targets, ∀ t ∈ row, t < m.vocab_size) :
    (score m inputs).length = inputs.length ∧
    (∀ brow ∈ score m inputs, brow.length = T) ∧
    (∀ brow ∈ score m inputs, ∀ v ∈ brow, v.length = m.vocab_size) ∧
    ∃ L : ℝ, (forward m inputs (some targets)).2 = some L ∧ 0 ≤ L := by
  refine ⟨by rw [score, embeddingLookup, List.length_map], ?_, ?_, ?_⟩
  · intro brow hbrow
    obtain ⟨row, hrow, rfl⟩ := List.mem_map.mp hbrow
    rw [List.length_map]
    exact hTi row hrow
  · intro brow hbrow v hv
    obtain ⟨row, hrow, rfl⟩ := List.mem_map.mp hbrow
    obtain ⟨tok, htok, rfl⟩ := List.mem_map.mp hv
    exact lookup_row_length m hWF (hin row hrow tok htok)
  · refine ⟨cross_entropy (score m inputs).flatten targets.flatten, rfl, ?_⟩
    rw [cross_entropy]
    apply div_nonneg ?_ (Nat.cast_nonneg _)
    apply List.sum_nonneg
    intro x hx
    obtain ⟨lrow, tgt, hlrow, htgt, rfl⟩ := mem_zipWith hx
    obtain ⟨brow, hbrow, hlmem⟩ := List.mem_flatten.mp hlrow
    obtain ⟨row, hrow, rfl⟩ := List.mem_map.mp hbrow
    obtain ⟨tok, htok, rfl⟩ := List.mem_map.mp hlmem
    obtain ⟨trow, htrow, htmem⟩ := List.mem_flatten.mp htgt
    have hlen : (m.token_embedding_table.getD tok []).length = m.vocab_size :=
      lookup_row_length m hWF (hin row hrow tok htok)
    apply nllRow_nonneg
    rw [hlen]
    exact htg trow htrow tgt htmem

/-- C8 witness at a concrete 1 x 2 batch over the concrete model. -/
theorem forward_shape_and_loss_nonneg_witness :
    (score mdl0 [[0, 1]]).length = 1 ∧
    (∀ brow ∈ score mdl0 [[0, 1]], brow.length = 2) ∧
    (∀ brow ∈ score mdl0 [[0, 1]], ∀ v ∈ brow, v.length = mdl0.vocab_size) ∧
    ∃ L : ℝ, (forward mdl0 [[0, 1]] (some [[1, 0]])).2 = some L ∧ 0 ≤ L :=
  forward_shape_and_loss_nonneg mdl0 [[0, 1]] [[1, 0]] 2 mdl0_WF (by decide)
    (by decide) rfl (by decide) (by decide) (by decide) (by decide)

/-- C9: saving the parameter mapping of a well-formed model and loading it
into a freshly constructed model of the same vocabulary size succeeds and
yields a model whose score output on every input batch is identical to the
original model's output. -/
theorem state_dict_roundtrip_score (m : BigramLanguageModel) (w0 : List (List ℝ))
    (hWF : WF m) :
    ∃ m2 : BigramLanguageModel,
      load_state_dict (BigramLanguageModel.init m.vocab_size w0)
        (torch_load (torch_save (state_dict m))) = some m2 ∧
      ∀ inputs : List (List Nat), score m2 inputs = score m inputs := by
  refine ⟨{ BigramLanguageModel.init m.vocab_size w0 with
    token_embedding_table := state_dict m }, ?_, fun inputs => rfl⟩
  rw [load_state_dict, if_pos]
  · rfl
  · exact hWF

/-- C9 witness: the round trip on the concrete model with zero-initialized
fresh weights. -/
theorem state_dict_roundtrip_score_witness :
    ∃ m2 : BigramLanguageModel,
      load_state_dict (BigramLanguageModel.init mdl0.vocab_size [[0, 0], [0, 0]])
        (torch_load (torch_save (state_dict mdl0))) = some m2 ∧
      ∀ inputs : List (List Nat), score m2 inputs = score mdl0 inputs :=
  state_dict_roundtrip_score mdl0 [[0, 0], [0, 0]] mdl0_WF
